import Mathlib

/-!
Verification of the in-process admission-and-lookup subsystem of the
URL-shortener backend: the chained-bucket HashMap cache (utils/hashMap.js),
the queue-based sliding-window rate limiter (utils/rateLimiter.js), the
short-code allocation loop and the shorten/redirect handlers
(routes/urlRoutes.js).  JavaScript numbers appearing here are integral
timestamps and counters, embedded as `Nat`; `null`/`undefined` results are
embedded as `Option`.
-/

/-! ## HashMap (utils/hashMap.js)

A bucket is an ordered list of key/value pairs (`bucket.push([key, value])`
in the source).  `buckets` is the fixed-size array of buckets; `count` the
incrementally maintained number of live entries. -/

structure HashMap where
  size : Nat
  buckets : List (List (String × String))
  count : Nat
deriving Repr, DecidableEq

/-- `constructor(size = 1000)`: `this.buckets = new Array(size).fill(null).map(() => [])`. -/
def HashMap.empty (size : Nat) : HashMap :=
  { size := size, buckets := List.replicate size [], count := 0 }

/-- The loop body of `_hash`: `hash = (hash + key.charCodeAt(i) * (i + 1)) % this.size`,
walking the key's characters with their position `i`.  (`charCodeAt` and
`Char.toNat` agree on the basic-plane characters short codes are made of.) -/
def hashChars (size : Nat) : List Char → Nat → Nat → Nat
  | [], _, hash => hash
  | c :: rest, i, hash => hashChars size rest (i + 1) ((hash + c.toNat * (i + 1)) % size)

/-- `_hash(key)`: positional weighted character sum, reduced modulo `size` at every step. -/
def HashMap._hash (m : HashMap) (key : String) : Nat :=
  hashChars m.size key.data 0 0

/-- The scan-and-update loop of `set`: if some pair of the bucket already has
this key, overwrite its value in place (`bucket[i][1] = value`); otherwise
append `[key, value]`.  The boolean reports whether a new pair was appended
(that is, whether the source's `this.count++` line runs). -/
def bucketSet : List (String × String) → String → String → List (String × String) × Bool
  | [], key, value => ([(key, value)], true)
  | p :: rest, key, value =>
    if p.1 = key then ((key, value) :: rest, false)
    else
      let r := bucketSet rest key value
      (p :: r.1, r.2)

/-- `set(key, value)`. -/
def HashMap.set (m : HashMap) (key value : String) : HashMap :=
  let index := m._hash key
  let bucket := m.buckets.getD index []
  let r := bucketSet bucket key value
  { m with
    buckets := m.buckets.set index r.1
    count := if r.2 then m.count + 1 else m.count }

/-- The scan loop of `get`: first pair of the bucket with this key, else `null`. -/
def bucketGet : List (String × String) → String → Option String
  | [], _ => none
  | p :: rest, key => if p.1 = key then some p.2 else bucketGet rest key

/-- `get(key)`: `null` (here `none`) when absent. -/
def HashMap.get (m : HashMap) (key : String) : Option String :=
  bucketGet (m.buckets.getD (m._hash key) []) key

/-- The scan-and-splice loop of `delete`: remove the first pair with this key
(`bucket.splice(i, 1)`); the boolean reports whether a removal occurred. -/
def bucketDelete : List (String × String) → String → List (String × String) × Bool
  | [], _ => ([], false)
  | p :: rest, key =>
    if p.1 = key then (rest, true)
    else
      let r := bucketDelete rest key
      (p :: r.1, r.2)

/-- `delete(key)`: on a removal, write the spliced bucket back and run
`this.count--` (`Nat` subtraction; the source's counter never underflows on
the states the program builds). -/
def HashMap.delete (m : HashMap) (key : String) : HashMap × Bool :=
  let index := m._hash key
  let bucket := m.buckets.getD index []
  let r := bucketDelete bucket key
  if r.2 then
    ({ m with buckets := m.buckets.set index r.1, count := m.count - 1 }, true)
  else (m, false)

/-- Well-formedness every cache the program constructs has: a positive bucket
count and a backing array of exactly that length. -/
def HashMap.WF (m : HashMap) : Prop :=
  0 < m.size ∧ m.buckets.length = m.size

instance (m : HashMap) : Decidable m.WF := by
  unfold HashMap.WF; infer_instance

/-! ## Helper lemmas on list indexing -/

theorem getD_set_self {α : Type} (l : List α) (i : Nat) (x d : α) (h : i < l.length) :
    (l.set i x).getD i d = x := by
  induction l generalizing i with
  | nil => simp at h
  | cons a t ih =>
    cases i with
    | zero => simp
    | succ n =>
      simp only [List.set_cons_succ, List.getD_cons_succ]
      exact ih n (by simpa using h)

theorem getD_set_ne {α : Type} (l : List α) (i j : Nat) (x d : α) (h : i ≠ j) :
    (l.set i x).getD j d = l.getD j d := by
  induction l generalizing i j with
  | nil => simp
  | cons a t ih =>
    cases i with
    | zero =>
      cases j with
      | zero => exact absurd rfl h
      | succ m => simp
    | succ n =>
      cases j with
      | zero => simp
      | succ m =>
        simp only [List.set_cons_succ, List.getD_cons_succ]
        exact ih n m (by omega)

/-! ## The hash function (C8) -/

/-- The positionally weighted character sum the spec describes: the sum over
character positions `i` of `charCode * (i + 1)`, starting at position `i₀`,
with no modular reduction. -/
def weightedSum : List Char → Nat → Nat
  | [], _ => 0
  | c :: rest, i => c.toNat * (i + 1) + weightedSum rest (i + 1)

theorem hashChars_lt (size : Nat) (cs : List Char) (i hash : Nat)
    (hs : 0 < size) (hh : hash < size) : hashChars size cs i hash < size := by
  induction cs generalizing i hash with
  | nil => simpa [hashChars] using hh
  | cons c rest ih =>
    simp only [hashChars]
    exact ih _ _ (Nat.mod_lt _ hs)

theorem hashChars_mod (size : Nat) (cs : List Char) (i h : Nat) :
    hashChars size cs i (h % size) = (h + weightedSum cs i) % size := by
  induction cs generalizing i h with
  | nil => simp [hashChars, weightedSum]
  | cons c rest ih =>
    simp only [hashChars, weightedSum]
    rw [Nat.mod_add_mod, ih (i + 1) (h + c.toNat * (i + 1))]
    ring_nf

/-- C8: for every key and every positive bucket count, `_hash` is the
weighted character sum reduced modulo the bucket count — the per-step modular
reduction of the implementation equals one reduction of the full sum.
(Determinism is immediate: `_hash` is a function of the key and the size.) -/
theorem hash_eq_weightedSum_mod (m : HashMap) (key : String) (h : 0 < m.size) :
    m._hash key = weightedSum key.data 0 % m.size := by
  have := hashChars_mod m.size key.data 0 0
  rwa [Nat.zero_mod, Nat.zero_add] at this

/-- C8 witness: the hash of "ab" in a 7-bucket map: 97*1 + 98*2 = 293, and
293 % 7 = 6. -/
theorem hash_eq_weightedSum_mod_witness :
    (HashMap.empty 7)._hash "ab" = weightedSum "ab".data 0 % (HashMap.empty 7).size :=
  hash_eq_weightedSum_mod (HashMap.empty 7) "ab" (by decide)

/-! ## Unfolding lemmas for the cache operations -/

theorem HashMap.size_set (m : HashMap) (k v : String) : (m.set k v).size = m.size := rfl

theorem HashMap._hash_set (m : HashMap) (k v key : String) :
    (m.set k v)._hash key = m._hash key := rfl

theorem HashMap.buckets_set (m : HashMap) (k v : String) :
    (m.set k v).buckets
      = m.buckets.set (m._hash k) (bucketSet (m.buckets.getD (m._hash k) []) k v).1 := rfl

theorem HashMap.count_set (m : HashMap) (k v : String) :
    (m.set k v).count
      = if (bucketSet (m.buckets.getD (m._hash k) []) k v).2 then m.count + 1 else m.count := rfl

theorem HashMap.get_def (m : HashMap) (key : String) :
    m.get key = bucketGet (m.buckets.getD (m._hash key) []) key := rfl

/-! ## Bucket-level lemmas -/

theorem bucketSet_get_self (b : List (String × String)) (k v : String) :
    bucketGet (bucketSet b k v).1 k = some v := by
  induction b with
  | nil => simp [bucketSet, bucketGet]
  | cons p rest ih =>
    by_cases hp : p.1 = k
    · simp [bucketSet, bucketGet, hp]
    · simp [bucketSet, bucketGet, hp, ih]

theorem bucketSet_get_ne (b : List (String × String)) (k v k' : String) (h : k' ≠ k) :
    bucketGet (bucketSet b k v).1 k' = bucketGet b k' := by
  induction b with
  | nil => simp [bucketSet, bucketGet, Ne.symm h]
  | cons p rest ih =>
    by_cases hp : p.1 = k
    · simp [bucketSet, bucketGet, hp, Ne.symm h]
    · simp [bucketSet, bucketGet, hp, ih]

theorem bucketSet_snd_eq (b : List (String × String)) (k v : String) :
    (bucketSet b k v).2 = true ↔ bucketGet b k = none := by
  induction b with
  | nil => simp [bucketSet, bucketGet]
  | cons p rest ih =>
    by_cases hp : p.1 = k
    · simp [bucketSet, bucketGet, hp]
    · simp [bucketSet, bucketGet, hp, ih]

theorem bucketDelete_snd (b : List (String × String)) (k : String) :
    (bucketDelete b k).2 = (bucketGet b k).isSome := by
  induction b with
  | nil => simp [bucketDelete, bucketGet]
  | cons p rest ih =>
    by_cases hp : p.1 = k
    · simp [bucketDelete, bucketGet, hp]
    · simp [bucketDelete, bucketGet, hp, ih]

theorem bucketGet_isSome_iff_mem (b : List (String × String)) (k : String) :
    (bucketGet b k).isSome = true ↔ k ∈ b.map Prod.fst := by
  induction b with
  | nil => simp [bucketGet]
  | cons p rest ih =>
    by_cases hp : p.1 = k
    · simp [bucketGet, hp]
    · simp [bucketGet, hp, ih, Ne.symm hp]

theorem bucketDelete_get_nodup (b : List (String × String)) (k : String)
    (h : (b.map Prod.fst).Nodup) : bucketGet (bucketDelete b k).1 k = none := by
  induction b with
  | nil => simp [bucketDelete, bucketGet]
  | cons p rest ih =>
    simp only [List.map_cons, List.nodup_cons] at h
    by_cases hp : p.1 = k
    · simp only [bucketDelete, hp, if_pos rfl]
      cases hg : bucketGet rest k with
      | none => exact hg
      | some v =>
        have : k ∈ rest.map Prod.fst := by
          rw [← bucketGet_isSome_iff_mem, hg]; rfl
        exact absurd (hp ▸ this) h.1
    · simp [bucketDelete, bucketGet, hp, ih h.2]

theorem getD_of_le {α : Type} (l : List α) (i : Nat) (d : α) (h : l.length ≤ i) :
    l.getD i d = d := by
  induction l generalizing i with
  | nil => simp
  | cons a t ih =>
    cases i with
    | zero => simp at h
    | succ n =>
      simp only [List.getD_cons_succ]
      exact ih n (by simpa using h)

theorem getD_mem {α : Type} (l : List α) (i : Nat) (d : α) (h : i < l.length) :
    l.getD i d ∈ l := by
  induction l generalizing i with
  | nil => simp at h
  | cons a t ih =>
    cases i with
    | zero => simp
    | succ n =>
      simp only [List.getD_cons_succ]
      exact List.mem_cons_of_mem _ (ih n (by simpa using h))

/-! ## Cache claims C5, C6, C7 -/

/-- C5: overwrite semantics — after `set(k, v1); set(k, v2)` a `get(k)`
returns `v2`, and the second `set` does not increase `count`: at most one
entry per key, last write wins. -/
theorem cache_overwrite (m : HashMap) (k v1 v2 : String) (h : m.WF) :
    ((m.set k v1).set k v2).get k = some v2 ∧
    ((m.set k v1).set k v2).count = (m.set k v1).count := by
  obtain ⟨hs, hl⟩ := h
  have hidx : m._hash k < m.buckets.length := by
    rw [hl]; exact hashChars_lt m.size k.data 0 0 hs hs
  have hlen1 : m._hash k < (m.set k v1).buckets.length := by
    rw [HashMap.buckets_set, List.length_set]
    exact hidx
  constructor
  · rw [HashMap.get_def, HashMap._hash_set, HashMap._hash_set,
      HashMap.buckets_set (m.set k v1) k v2, HashMap._hash_set,
      getD_set_self _ _ _ _ hlen1, bucketSet_get_self]
  · rw [HashMap.count_set (m.set k v1) k v2, HashMap._hash_set]
    have hfull : bucketGet ((m.set k v1).buckets.getD (m._hash k) []) k = some v1 := by
      rw [HashMap.buckets_set, getD_set_self _ _ _ _ hidx, bucketSet_get_self]
    cases hc : (bucketSet ((m.set k v1).buckets.getD (m._hash k) []) k v2).2 with
    | false => simp
    | true =>
      have := (bucketSet_snd_eq _ _ _).mp hc
      rw [hfull] at this
      exact absurd this (by simp)

/-- C5 witness: overwriting key "a" in a fresh 5-bucket cache. -/
theorem cache_overwrite_witness :
    (((HashMap.empty 5).set "a" "u1").set "a" "u2").get "a" = some "u2" ∧
    (((HashMap.empty 5).set "a" "u1").set "a" "u2").count
      = ((HashMap.empty 5).set "a" "u1").count :=
  cache_overwrite (HashMap.empty 5) "a" "u1" "u2" (by decide)

/-- C6: frame property — writing key `k2` never changes the value observed
at any other key `k1`. -/
theorem cache_frame (m : HashMap) (k1 k2 v : String) (h : m.WF) (hne : k1 ≠ k2) :
    (m.set k2 v).get k1 = m.get k1 := by
  obtain ⟨hs, hl⟩ := h
  have hidx2 : m._hash k2 < m.buckets.length := by
    rw [hl]; exact hashChars_lt m.size k2.data 0 0 hs hs
  rw [HashMap.get_def, HashMap.get_def, HashMap._hash_set, HashMap.buckets_set]
  by_cases hii : m._hash k2 = m._hash k1
  · rw [← hii, getD_set_self _ _ _ _ hidx2, bucketSet_get_ne _ _ _ _ hne]
  · rw [getD_set_ne _ _ _ _ _ hii]

/-- C6 witness: in a 5-bucket cache holding "a", a write to "b" leaves
`get "a"` unchanged. -/
theorem cache_frame_witness :
    (((HashMap.empty 5).set "a" "u1").set "b" "u2").get "a"
      = ((HashMap.empty 5).set "a" "u1").get "a" :=
  cache_frame ((HashMap.empty 5).set "a" "u1") "a" "b" "u2" (by decide) (by decide)

/-! ## Delete (C7) -/

/-- Keys are unique within every bucket — the invariant `set` maintains
(it overwrites an existing pair instead of appending a duplicate). -/
def HashMap.NodupKeys (m : HashMap) : Prop :=
  ∀ b ∈ m.buckets, (b.map Prod.fst).Nodup

instance (m : HashMap) : Decidable m.NodupKeys := by
  unfold HashMap.NodupKeys; infer_instance

theorem HashMap.delete_eq_pos (m : HashMap) (k : String)
    (h : (bucketDelete (m.buckets.getD (m._hash k) []) k).2 = true) :
    m.delete k
      = (⟨m.size,
          m.buckets.set (m._hash k) (bucketDelete (m.buckets.getD (m._hash k) []) k).1,
          m.count - 1⟩, true) := by
  simp only [HashMap.delete]
  rw [if_pos h]

theorem HashMap.delete_eq_neg (m : HashMap) (k : String)
    (h : (bucketDelete (m.buckets.getD (m._hash k) []) k).2 = false) :
    m.delete k = (m, false) := by
  simp only [HashMap.delete]
  rw [if_neg]
  rw [h]
  exact Bool.false_ne_true

theorem HashMap.delete_snd (m : HashMap) (k : String) :
    (m.delete k).2 = (m.get k).isSome := by
  rw [HashMap.get_def, ← bucketDelete_snd]
  cases hr : (bucketDelete (m.buckets.getD (m._hash k) []) k).2 with
  | false => rw [HashMap.delete_eq_neg m k hr]
  | true => rw [HashMap.delete_eq_pos m k hr]

/-- C7: `delete(k)` returns `true` exactly when an entry for `k` is present;
a successful delete removes the entry, decrements `count`, and a second
`delete(k)` with no intervening `set` returns `false`. -/
theorem cache_delete_spec (m : HashMap) (k : String) (h : m.NodupKeys) :
    ((m.delete k).2 = (m.get k).isSome) ∧
    ((m.delete k).2 = true → (m.delete k).1.get k = none) ∧
    ((m.delete k).2 = true → (m.delete k).1.count = m.count - 1) ∧
    ((m.delete k).2 = true → ((m.delete k).1.delete k).2 = false) := by
  have hremoved : (m.delete k).2 = true →
      (m.delete k).1.get k = none ∧ (m.delete k).1.count = m.count - 1 := by
    intro htrue
    have hr : (bucketDelete (m.buckets.getD (m._hash k) []) k).2 = true := by
      cases hc : (bucketDelete (m.buckets.getD (m._hash k) []) k).2 with
      | true => rfl
      | false => rw [HashMap.delete_eq_neg m k hc] at htrue; exact absurd htrue (by simp)
    have hmap := HashMap.delete_eq_pos m k hr
    have hne : m.buckets.getD (m._hash k) [] ≠ [] := by
      intro hnil
      rw [hnil] at hr
      simp [bucketDelete] at hr
    have hidx : m._hash k < m.buckets.length := by
      by_contra hge
      exact hne (getD_of_le _ _ _ (by omega))
    have hnodup : ((m.buckets.getD (m._hash k) []).map Prod.fst).Nodup :=
      h _ (getD_mem _ _ _ hidx)
    rw [hmap]
    constructor
    · show bucketGet ((m.buckets.set (m._hash k) _).getD (m._hash k) []) k = none
      rw [getD_set_self _ _ _ _ hidx]
      exact bucketDelete_get_nodup _ _ hnodup
    · rfl
  refine ⟨HashMap.delete_snd m k, fun ht => (hremoved ht).1, fun ht => (hremoved ht).2, ?_⟩
  intro ht
  rw [HashMap.delete_snd, (hremoved ht).1]
  rfl

/-- C7 witness: delete of the one live key "a" succeeds, removes it,
decrements the count, and a repeated delete returns `false`. -/
theorem cache_delete_spec_witness :
    ((((HashMap.empty 5).set "a" "u").delete "a").2
       = (((HashMap.empty 5).set "a" "u").get "a").isSome) ∧
    ((((HashMap.empty 5).set "a" "u").delete "a").1.delete "a").2 = false := by
  have h := cache_delete_spec ((HashMap.empty 5).set "a" "u") "a" (by decide)
  exact ⟨h.1, h.2.2.2 (by decide)⟩

/-! ## RateLimiterQueue (utils/rateLimiter.js)

The `Map` of identifier → timestamp queue is embedded as an association
list in insertion order, timestamps (`Date.now()`) as `Nat` milliseconds. -/

inductive RateResult where
  | allowed (remaining : Nat)
  | rejected (retryAfter : Nat)
deriving Repr, DecidableEq

structure RateLimiterQueue where
  windowMs : Nat
  maxRequests : Nat
  requestQueues : List (String × List Nat)
deriving Repr, DecidableEq

/-- `constructor(windowMs = 60000, maxRequests = 10)` with an empty `Map`. -/
def RateLimiterQueue.init (windowMs maxRequests : Nat) : RateLimiterQueue :=
  ⟨windowMs, maxRequests, []⟩

/-- `Map.get`. -/
def findQueue : List (String × List Nat) → String → Option (List Nat)
  | [], _ => none
  | p :: rest, id => if p.1 = id then some p.2 else findQueue rest id

/-- `Map.set`: overwrite the key in place, else append (insertion order kept). -/
def setQueue : List (String × List Nat) → String → List Nat → List (String × List Nat)
  | [], id, q => [(id, q)]
  | p :: rest, id, q => if p.1 = id then (id, q) :: rest else p :: setQueue rest id q

/-- `Map.delete`. -/
def deleteQueue : List (String × List Nat) → String → List (String × List Nat)
  | [], _ => []
  | p :: rest, id => if p.1 = id then rest else p :: deleteQueue rest id

/-- The trim loop `while (queue.length > 0 && queue[0] < now - this.windowMs)
queue.shift()`.  (`now - windowMs` in truncated `Nat` subtraction agrees with
the JS real-valued comparison because timestamps are non-negative.) -/
def trimQueue (windowMs now : Nat) : List Nat → List Nat
  | [] => []
  | t :: rest => if t < now - windowMs then trimQueue windowMs now rest else t :: rest

/-- `Math.ceil(a / b)` for non-negative integral `a` and positive `b`. -/
def ceilDiv (a b : Nat) : Nat := (a + b - 1) / b

/-- `isAllowed(identifier)` at time `now`: lazily create the queue, trim it,
then reject (`retryAfter = Math.ceil((queue[0] + windowMs - now) / 1000)`,
whose numerator is non-negative since the trim just retained `queue[0]`) or
append `now` and admit with `remaining = maxRequests - queue.length`.  The
final map update captures JS's in-place mutation of the fetched array;
`headD 0` stands for `queue[0]`, read on the reject path only when the queue
is non-empty (every deployment has positive `maxRequests`). -/
def RateLimiterQueue.isAllowed (s : RateLimiterQueue) (now : Nat) (identifier : String) :
    RateLimiterQueue × RateResult :=
  let queue := (findQueue s.requestQueues identifier).getD []
  let queue := trimQueue s.windowMs now queue
  if s.maxRequests ≤ queue.length then
    (⟨s.windowMs, s.maxRequests, setQueue s.requestQueues identifier queue⟩,
     .rejected (ceilDiv (queue.headD 0 + s.windowMs - now) 1000))
  else
    let queue := queue ++ [now]
    (⟨s.windowMs, s.maxRequests, setQueue s.requestQueues identifier queue⟩,
     .allowed (s.maxRequests - queue.length))

/-- `getRequestCount(identifier)`: queue length, `0` for an unknown identifier. -/
def RateLimiterQueue.getRequestCount (s : RateLimiterQueue) (identifier : String) : Nat :=
  match findQueue s.requestQueues identifier with
  | some q => q.length
  | none => 0

/-- `reset(identifier)`: drop the identifier's window entirely. -/
def RateLimiterQueue.reset (s : RateLimiterQueue) (identifier : String) : RateLimiterQueue :=
  ⟨s.windowMs, s.maxRequests, deleteQueue s.requestQueues identifier⟩

/-- The sweep body of `cleanup()`: trim each queue, delete identifiers whose
queue becomes empty (`queue.length === 0`). -/
def cleanupEntries (windowMs now : Nat) : List (String × List Nat) → List (String × List Nat)
  | [] => []
  | p :: rest =>
    let q := trimQueue windowMs now p.2
    if q.length = 0 then cleanupEntries windowMs now rest
    else (p.1, q) :: cleanupEntries windowMs now rest

/-- `cleanup()` at time `now`. -/
def RateLimiterQueue.cleanup (s : RateLimiterQueue) (now : Nat) : RateLimiterQueue :=
  ⟨s.windowMs, s.maxRequests, cleanupEntries s.windowMs now s.requestQueues⟩

/-- Consecutive `isAllowed` calls for one identifier at the given times. -/
def runCalls (s : RateLimiterQueue) (identifier : String) :
    List Nat → RateLimiterQueue × List RateResult
  | [] => (s, [])
  | now :: rest =>
    let r := s.isAllowed now identifier
    let rr := runCalls r.1 identifier rest
    (rr.1, r.2 :: rr.2)

/-! ## Trim lemmas -/

theorem trimQueue_eq_dropWhile (w now : Nat) (q : List Nat) :
    trimQueue w now q = q.dropWhile (fun t => decide (t < now - w)) := by
  induction q with
  | nil => rfl
  | cons t rest ih =>
    by_cases h : t < now - w
    · simp [trimQueue, List.dropWhile, h, ih]
    · simp [trimQueue, List.dropWhile, h]

theorem trimQueue_length_le (w now : Nat) (q : List Nat) :
    (trimQueue w now q).length ≤ q.length := by
  induction q with
  | nil => simp [trimQueue]
  | cons t rest ih =>
    by_cases h : t < now - w
    · simp only [trimQueue, if_pos h]
      exact le_trans ih (by simp)
    · simp [trimQueue, h]

/-! ## isAllowed step lemmas -/

theorem isAllowed_first (id : String) (w m now : Nat) (hm : 0 < m) :
    (⟨w, m, []⟩ : RateLimiterQueue).isAllowed now id
      = (⟨w, m, [(id, [now])]⟩, .allowed (m - 1)) := by
  simp [RateLimiterQueue.isAllowed, findQueue, trimQueue, setQueue]
  omega

theorem isAllowed_step (id : String) (w m t1 now : Nat) (q : List Nat)
    (hhead : ¬ t1 < now - w) (hlen : (t1 :: q).length < m) :
    (⟨w, m, [(id, t1 :: q)]⟩ : RateLimiterQueue).isAllowed now id
      = (⟨w, m, [(id, (t1 :: q) ++ [now])]⟩, .allowed (m - ((t1 :: q).length + 1))) := by
  have hnle : ¬ (m ≤ (t1 :: q).length) := Nat.not_le.mpr hlen
  simp only [List.length_cons] at hlen
  simp [RateLimiterQueue.isAllowed, findQueue, trimQueue, setQueue, hhead, hnle]
  omega

theorem isAllowed_reject (id : String) (w m t1 now : Nat) (q : List Nat)
    (hhead : ¬ t1 < now - w) (hlen : m ≤ (t1 :: q).length) :
    (⟨w, m, [(id, t1 :: q)]⟩ : RateLimiterQueue).isAllowed now id
      = (⟨w, m, [(id, t1 :: q)]⟩, .rejected (ceilDiv (t1 + w - now) 1000)) := by
  simp only [List.length_cons] at hlen
  simp [RateLimiterQueue.isAllowed, findQueue, trimQueue, setQueue, hhead, hlen]

/-- C2: `isAllowed` first drops the expired prefix of the identifier's queue
(timestamps strictly older than `now - windowMs`); if the remaining count
reaches `maxRequests` it rejects with
`retryAfter = ceil((oldestRemaining + windowMs - now) / 1000)`, otherwise it
appends `now` and admits with `remaining = maxRequests - newCount`.
Consequently with `windowMs = 60000, maxRequests = 10`, ten calls within the
window are admitted with `remaining` 9,8,...,0 and an eleventh call in the
same window is rejected with a positive retry-after. -/
theorem rateLimiter_isAllowed_spec :
    (∀ (s : RateLimiterQueue) (now : Nat) (id : String),
      ((((findQueue s.requestQueues id).getD []).dropWhile
            (fun t => decide (t < now - s.windowMs))).length < s.maxRequests →
        s.isAllowed now id
          = (⟨s.windowMs, s.maxRequests,
              setQueue s.requestQueues id
                ((((findQueue s.requestQueues id).getD []).dropWhile
                    (fun t => decide (t < now - s.windowMs))) ++ [now])⟩,
             .allowed (s.maxRequests
               - ((((findQueue s.requestQueues id).getD []).dropWhile
                     (fun t => decide (t < now - s.windowMs))).length + 1)))) ∧
      (s.maxRequests ≤ (((findQueue s.requestQueues id).getD []).dropWhile
            (fun t => decide (t < now - s.windowMs))).length →
        s.isAllowed now id
          = (⟨s.windowMs, s.maxRequests,
              setQueue s.requestQueues id
                (((findQueue s.requestQueues id).getD []).dropWhile
                    (fun t => decide (t < now - s.windowMs)))⟩,
             .rejected (ceilDiv
               ((((findQueue s.requestQueues id).getD []).dropWhile
                    (fun t => decide (t < now - s.windowMs))).headD 0
                 + s.windowMs - now) 1000)))) ∧
    (∀ (id : String) (t1 t2 t3 t4 t5 t6 t7 t8 t9 t10 t11 : Nat),
      (∀ t ∈ [t2, t3, t4, t5, t6, t7, t8, t9, t10, t11], t1 ≤ t ∧ t < t1 + 60000) →
      (runCalls (RateLimiterQueue.init 60000 10) id
          [t1, t2, t3, t4, t5, t6, t7, t8, t9, t10, t11]).2
        = [.allowed 9, .allowed 8, .allowed 7, .allowed 6, .allowed 5, .allowed 4,
           .allowed 3, .allowed 2, .allowed 1, .allowed 0,
           .rejected (ceilDiv (t1 + 60000 - t11) 1000)]
      ∧ 0 < ceilDiv (t1 + 60000 - t11) 1000) := by
  constructor
  · intro s now id
    rw [← trimQueue_eq_dropWhile]
    constructor
    · intro hlt
      have hnle : ¬ (s.maxRequests
          ≤ (trimQueue s.windowMs now ((findQueue s.requestQueues id).getD [])).length) :=
        Nat.not_le.mpr hlt
      simp only [RateLimiterQueue.isAllowed]
      rw [if_neg hnle]
      simp
    · intro hge
      simp only [RateLimiterQueue.isAllowed]
      rw [if_pos hge]
  · intro id t1 t2 t3 t4 t5 t6 t7 t8 t9 t10 t11 h
    have h2 := h t2 (by simp)
    have h3 := h t3 (by simp)
    have h4 := h t4 (by simp)
    have h5 := h t5 (by simp)
    have h6 := h t6 (by simp)
    have h7 := h t7 (by simp)
    have h8 := h t8 (by simp)
    have h9 := h t9 (by simp)
    have h10 := h t10 (by simp)
    have h11 := h t11 (by simp)
    have e1 := isAllowed_first id 60000 10 t1 (by norm_num)
    have e2 := isAllowed_step id 60000 10 t1 t2 [] (by omega) (by simp)
    have e3 := isAllowed_step id 60000 10 t1 t3 [t2] (by omega) (by simp)
    have e4 := isAllowed_step id 60000 10 t1 t4 [t2, t3] (by omega) (by simp)
    have e5 := isAllowed_step id 60000 10 t1 t5 [t2, t3, t4] (by omega) (by simp)
    have e6 := isAllowed_step id 60000 10 t1 t6 [t2, t3, t4, t5] (by omega) (by simp)
    have e7 := isAllowed_step id 60000 10 t1 t7 [t2, t3, t4, t5, t6] (by omega) (by simp)
    have e8 := isAllowed_step id 60000 10 t1 t8 [t2, t3, t4, t5, t6, t7] (by omega) (by simp)
    have e9 := isAllowed_step id 60000 10 t1 t9 [t2, t3, t4, t5, t6, t7, t8]
      (by omega) (by simp)
    have e10 := isAllowed_step id 60000 10 t1 t10 [t2, t3, t4, t5, t6, t7, t8, t9]
      (by omega) (by simp)
    have er := isAllowed_reject id 60000 10 t1 t11 [t2, t3, t4, t5, t6, t7, t8, t9, t10]
      (by omega) (by simp)
    constructor
    · simp [runCalls, RateLimiterQueue.init, e1, e2, e3, e4, e5, e6, e7, e8, e9, e10, er]
    · simp only [ceilDiv]
      exact Nat.div_pos (by omega) (by norm_num)

/-! ## Cleanup lemmas (C9) -/

theorem trimQueue_all_old (w now : Nat) (q : List Nat) (h : ∀ t ∈ q, t < now - w) :
    trimQueue w now q = [] := by
  induction q with
  | nil => rfl
  | cons t rest ih =>
    rw [trimQueue, if_pos (h t (by simp))]
    exact ih (fun t' ht' => h t' (by simp [ht']))

theorem trimQueue_mem_fresh (w now : Nat) (q : List Nat) (t : Nat)
    (ht : t ∈ q) (hfresh : ¬ t < now - w) : t ∈ trimQueue w now q := by
  induction q with
  | nil => simp at ht
  | cons x rest ih =>
    by_cases hx : x < now - w
    · rw [trimQueue, if_pos hx]
      rcases List.mem_cons.mp ht with rfl | hmem
      · exact absurd hx hfresh
      · exact ih hmem
    · rw [trimQueue, if_neg hx]
      exact ht

theorem findQueue_cleanupEntries_none (w now : Nat) (l : List (String × List Nat))
    (id : String) (h : ∀ p ∈ l, p.1 ≠ id) :
    findQueue (cleanupEntries w now l) id = none := by
  induction l with
  | nil => rfl
  | cons p rest ih =>
    have hrest := ih (fun p' hp' => h p' (by simp [hp']))
    by_cases hz : (trimQueue w now p.2).length = 0
    · rw [cleanupEntries, if_pos hz]
      exact hrest
    · rw [cleanupEntries, if_neg hz, findQueue, if_neg (h p (by simp))]
      exact hrest

theorem findQueue_cleanupEntries (w now : Nat) (l : List (String × List Nat))
    (id : String) (q : List Nat) (hnodup : (l.map Prod.fst).Nodup)
    (hq : findQueue l id = some q) :
    findQueue (cleanupEntries w now l) id
      = if (trimQueue w now q).length = 0 then none else some (trimQueue w now q) := by
  induction l with
  | nil => simp [findQueue] at hq
  | cons p rest ih =>
    simp only [List.map_cons, List.nodup_cons] at hnodup
    by_cases hp : p.1 = id
    · rw [findQueue, if_pos hp] at hq
      obtain rfl : p.2 = q := by injection hq
      have habsent : ∀ p' ∈ rest, p'.1 ≠ id := by
        intro p' hp' heq
        exact hnodup.1 (hp ▸ heq ▸ List.mem_map_of_mem Prod.fst hp')
      by_cases hz : (trimQueue w now p.2).length = 0
      · rw [cleanupEntries, if_pos hz, if_pos hz]
        exact findQueue_cleanupEntries_none w now rest id habsent
      · rw [cleanupEntries, if_neg hz, if_neg hz, findQueue, if_pos hp]
    · rw [findQueue, if_neg hp] at hq
      have hrest := ih hnodup.2 hq
      by_cases hz : (trimQueue w now p.2).length = 0
      · rw [cleanupEntries, if_pos hz]
        exact hrest
      · rw [cleanupEntries, if_neg hz, findQueue, if_neg hp]
        exact hrest

/-- C9: after `cleanup()` at time `now`, an identifier whose timestamps are
all older than `now - windowMs` is removed from the tracking map; an
identifier with at least one fresh timestamp stays tracked, its queue
trimmed by the prefix-trim loop, every fresh timestamp retained. -/
theorem rateLimiter_cleanup_spec (s : RateLimiterQueue) (now : Nat) (id : String)
    (q : List Nat) (hnodup : (s.requestQueues.map Prod.fst).Nodup)
    (hq : findQueue s.requestQueues id = some q) :
    ((∀ t ∈ q, t < now - s.windowMs) →
      findQueue (s.cleanup now).requestQueues id = none) ∧
    ((∃ t ∈ q, ¬ t < now - s.windowMs) →
      findQueue (s.cleanup now).requestQueues id = some (trimQueue s.windowMs now q)) ∧
    (∀ t ∈ q, ¬ t < now - s.windowMs → t ∈ trimQueue s.windowMs now q) := by
  have hmain := findQueue_cleanupEntries s.windowMs now s.requestQueues id q hnodup hq
  refine ⟨?_, ?_, ?_⟩
  · intro hall
    show findQueue (cleanupEntries s.windowMs now s.requestQueues) id = none
    rw [hmain, trimQueue_all_old s.windowMs now q hall]
    rfl
  · intro ⟨t, ht, hfresh⟩
    show findQueue (cleanupEntries s.windowMs now s.requestQueues) id = _
    rw [hmain, if_neg]
    intro hz
    rw [List.length_eq_zero] at hz
    have : t ∈ ([] : List Nat) := hz ▸ trimQueue_mem_fresh s.windowMs now q t ht hfresh
    simp at this
  · exact fun t ht hfresh => trimQueue_mem_fresh s.windowMs now q t ht hfresh

/-- C9 witness: with `windowMs = 100` at `now = 300`, identifier "a"
(timestamps all stale) is dropped and "b" (one fresh timestamp) is kept
trimmed. -/
theorem rateLimiter_cleanup_spec_witness :
    findQueue ((⟨100, 10, [("a", [5, 50]), ("b", [40, 250])]⟩ :
        RateLimiterQueue).cleanup 300).requestQueues "a" = none ∧
    findQueue ((⟨100, 10, [("a", [5, 50]), ("b", [40, 250])]⟩ :
        RateLimiterQueue).cleanup 300).requestQueues "b" = some [250] := by
  constructor
  · exact (rateLimiter_cleanup_spec ⟨100, 10, [("a", [5, 50]), ("b", [40, 250])]⟩
      300 "a" [5, 50] (by decide) (by decide)).1 (by decide)
  · have h := (rateLimiter_cleanup_spec ⟨100, 10, [("a", [5, 50]), ("b", [40, 250])]⟩
      300 "b" [40, 250] (by decide) (by decide)).2.1 ⟨250, by decide, by decide⟩
    rw [h]
    rfl

/-! ## Queue-length invariant (C10) -/

/-- The four public operations of `RateLimiterQueue` (the `now` argument is
the `Date.now()` reading the mutating operations take). -/
inductive LimiterOp where
  | isAllowedOp (now : Nat) (id : String)
  | getRequestCountOp (id : String)
  | resetOp (id : String)
  | cleanupOp (now : Nat)

/-- State effect of one operation (`getRequestCount` only reads). -/
def applyOp (s : RateLimiterQueue) : LimiterOp → RateLimiterQueue
  | .isAllowedOp now id => (s.isAllowed now id).1
  | .getRequestCountOp _ => s
  | .resetOp id => s.reset id
  | .cleanupOp now => s.cleanup now

def runOps (s : RateLimiterQueue) : List LimiterOp → RateLimiterQueue
  | [] => s
  | op :: rest => runOps (applyOp s op) rest

/-- No tracked identifier's timestamp queue is longer than `maxRequests`. -/
def QueuesBounded (s : RateLimiterQueue) : Prop :=
  ∀ p ∈ s.requestQueues, p.2.length ≤ s.maxRequests

theorem findQueue_mem (l : List (String × List Nat)) (id : String) (q : List Nat)
    (h : findQueue l id = some q) : (id, q) ∈ l := by
  induction l with
  | nil => simp [findQueue] at h
  | cons p rest ih =>
    by_cases hp : p.1 = id
    · rw [findQueue, if_pos hp] at h
      obtain rfl : p.2 = q := by injection h
      simp [← hp]
    · rw [findQueue, if_neg hp] at h
      exact List.mem_cons_of_mem _ (ih h)

theorem setQueue_mem (l : List (String × List Nat)) (id : String) (q : List Nat)
    (p : String × List Nat) (h : p ∈ setQueue l id q) : p ∈ l ∨ p = (id, q) := by
  induction l with
  | nil => simpa [setQueue] using h
  | cons p' rest ih =>
    by_cases hp : p'.1 = id
    · rw [setQueue, if_pos hp] at h
      rcases List.mem_cons.mp h with rfl | hmem
      · exact Or.inr rfl
      · exact Or.inl (List.mem_cons_of_mem _ hmem)
    · rw [setQueue, if_neg hp] at h
      rcases List.mem_cons.mp h with rfl | hmem
      · exact Or.inl (by simp)
      · rcases ih hmem with hl | hr
        · exact Or.inl (List.mem_cons_of_mem _ hl)
        · exact Or.inr hr

theorem deleteQueue_subset (l : List (String × List Nat)) (id : String)
    (p : String × List Nat) (h : p ∈ deleteQueue l id) : p ∈ l := by
  induction l with
  | nil => simpa [deleteQueue] using h
  | cons p' rest ih =>
    by_cases hp : p'.1 = id
    · rw [deleteQueue, if_pos hp] at h
      exact List.mem_cons_of_mem _ h
    · rw [deleteQueue, if_neg hp] at h
      rcases List.mem_cons.mp h with rfl | hmem
      · simp
      · exact List.mem_cons_of_mem _ (ih hmem)

theorem cleanupEntries_mem (w now : Nat) (l : List (String × List Nat))
    (p : String × List Nat) (h : p ∈ cleanupEntries w now l) :
    ∃ q, (p.1, q) ∈ l ∧ p.2 = trimQueue w now q := by
  induction l with
  | nil => simp [cleanupEntries] at h
  | cons p' rest ih =>
    by_cases hz : (trimQueue w now p'.2).length = 0
    · rw [cleanupEntries, if_pos hz] at h
      obtain ⟨q, hq, he⟩ := ih h
      exact ⟨q, List.mem_cons_of_mem _ hq, he⟩
    · rw [cleanupEntries, if_neg hz] at h
      rcases List.mem_cons.mp h with rfl | hmem
      · exact ⟨p'.2, by simp, rfl⟩
      · obtain ⟨q, hq, he⟩ := ih hmem
        exact ⟨q, List.mem_cons_of_mem _ hq, he⟩

theorem isAllowed_fst (s : RateLimiterQueue) (now : Nat) (id : String) :
    (s.isAllowed now id).1
      = ⟨s.windowMs, s.maxRequests, setQueue s.requestQueues id
          (if s.maxRequests
              ≤ (trimQueue s.windowMs now ((findQueue s.requestQueues id).getD [])).length
           then trimQueue s.windowMs now ((findQueue s.requestQueues id).getD [])
           else trimQueue s.windowMs now ((findQueue s.requestQueues id).getD []) ++ [now])⟩ := by
  simp only [RateLimiterQueue.isAllowed]
  by_cases hc : s.maxRequests
      ≤ (trimQueue s.windowMs now ((findQueue s.requestQueues id).getD [])).length
  · rw [if_pos hc, if_pos hc]
  · rw [if_neg hc, if_neg hc]

theorem applyOp_bound (s : RateLimiterQueue) (op : LimiterOp)
    (hB : QueuesBounded s) : QueuesBounded (applyOp s op) := by
  cases op with
  | isAllowedOp now id =>
    show QueuesBounded (s.isAllowed now id).1
    rw [isAllowed_fst]
    intro p hp
    have hq0 : ((findQueue s.requestQueues id).getD []).length ≤ s.maxRequests := by
      cases hf : findQueue s.requestQueues id with
      | none => simp
      | some q => exact hB (id, q) (findQueue_mem _ _ _ hf)
    have htrim := trimQueue_length_le s.windowMs now ((findQueue s.requestQueues id).getD [])
    rcases setQueue_mem _ _ _ _ hp with hmem | rfl
    · exact hB p hmem
    · show (if s.maxRequests
            ≤ (trimQueue s.windowMs now ((findQueue s.requestQueues id).getD [])).length
          then _ else _ : List Nat).length ≤ s.maxRequests
      by_cases hc : s.maxRequests
          ≤ (trimQueue s.windowMs now ((findQueue s.requestQueues id).getD [])).length
      · rw [if_pos hc]
        omega
      · rw [if_neg hc]
        simp only [List.length_append, List.length_cons, List.length_nil]
        omega
  | getRequestCountOp id => exact hB
  | resetOp id =>
    intro p hp
    exact hB p (deleteQueue_subset _ _ _ hp)
  | cleanupOp now =>
    intro p hp
    obtain ⟨q, hq, he⟩ := cleanupEntries_mem _ _ _ _ hp
    have := trimQueue_length_le s.windowMs now q
    have hb := hB (p.1, q) hq
    simp only at hb
    show p.2.length ≤ s.maxRequests
    rw [he]
    omega

/-- C10: from a fresh limiter, after any sequence of `isAllowed`,
`getRequestCount`, `reset` and `cleanup` calls, no identifier's stored
timestamp queue is longer than `maxRequests` — `isAllowed` appends only
when the post-trim length is strictly below `maxRequests`, and no other
operation appends. -/
theorem rateLimiter_queue_bound (w m : Nat) (ops : List LimiterOp) :
    QueuesBounded (runOps (RateLimiterQueue.init w m) ops) := by
  have main : ∀ (ops' : List LimiterOp) (s : RateLimiterQueue),
      QueuesBounded s → QueuesBounded (runOps s ops') := by
    intro ops'
    induction ops' with
    | nil => exact fun s h => h
    | cons op rest ih => exact fun s h => ih _ (applyOp_bound s op h)
  refine main ops _ ?_
  intro p hp
  simp [RateLimiterQueue.init] at hp

/-! ## Short-code allocator (C3)

The do-while loop of POST /api/shorten (routes/urlRoutes.js):
```
let attempts = 0; const maxAttempts = 5;
do {
  shortCode = nanoid(7);
  const existing = await Url.findOne({ shortCode });
  if (!existing) break;
  attempts++;
} while (attempts < maxAttempts);
if (attempts >= maxAttempts) -> 500
```
`gen k` is the code the k-th `nanoid(7)` call produces (the random stream as
an oracle); `taken` is the persistence probe `Url.findOne({shortCode})`.
`attempts` rises by one per collision, so iteration k probes `gen k` and
`fuel = maxAttempts - attempts` counts the iterations still permitted; the
loop exits exhausted exactly when 5 consecutive probes collide. -/

inductive AllocResult where
  | success (code : String)
  | exhausted
deriving Repr, DecidableEq

def maxAttempts : Nat := 5

def allocateFrom (gen : Nat → String) (taken : String → Bool) : Nat → Nat → AllocResult
  | _, 0 => .exhausted
  | k, fuel + 1 =>
    if taken (gen k) then allocateFrom gen taken (k + 1) fuel
    else .success (gen k)

def allocate (gen : Nat → String) (taken : String → Bool) : AllocResult :=
  allocateFrom gen taken 0 maxAttempts

/-- C3: the allocator probes at most 5 codes — its result depends only on the
first five probes; four collisions followed by a free probe yield the fifth
code; five collisions yield `AllocationExhausted` (the 500 branch). -/
theorem allocate_spec :
    (∀ (gen : Nat → String) (taken : String → Bool),
      (∀ i, i < 4 → taken (gen i) = true) → taken (gen 4) = false →
      allocate gen taken = .success (gen 4)) ∧
    (∀ (gen : Nat → String) (taken : String → Bool),
      (∀ i, i < 5 → taken (gen i) = true) →
      allocate gen taken = .exhausted) ∧
    (∀ (gen₁ gen₂ : Nat → String) (taken₁ taken₂ : String → Bool),
      (∀ i, i < 5 → gen₁ i = gen₂ i) →
      (∀ i, i < 5 → taken₁ (gen₁ i) = taken₂ (gen₂ i)) →
      allocate gen₁ taken₁ = allocate gen₂ taken₂) := by
  refine ⟨?_, ?_, ?_⟩
  · intro gen taken htaken hfree
    simp [allocate, maxAttempts, allocateFrom,
      htaken 0 (by norm_num), htaken 1 (by norm_num), htaken 2 (by norm_num),
      htaken 3 (by norm_num), hfree]
  · intro gen taken htaken
    simp [allocate, maxAttempts, allocateFrom,
      htaken 0 (by norm_num), htaken 1 (by norm_num), htaken 2 (by norm_num),
      htaken 3 (by norm_num), htaken 4 (by norm_num)]
  · intro gen₁ gen₂ taken₁ taken₂ hg ht
    have ht' : ∀ i, i < 5 → taken₁ (gen₂ i) = taken₂ (gen₂ i) := by
      intro i hi
      calc taken₁ (gen₂ i) = taken₁ (gen₁ i) := by rw [hg i hi]
        _ = taken₂ (gen₂ i) := ht i hi
    simp [allocate, maxAttempts, allocateFrom,
      hg 0 (by norm_num), hg 1 (by norm_num), hg 2 (by norm_num),
      hg 3 (by norm_num), hg 4 (by norm_num),
      ht' 0 (by norm_num), ht' 1 (by norm_num), ht' 2 (by norm_num),
      ht' 3 (by norm_num), ht' 4 (by norm_num)]

/-! ## Canonical records and the HTTP handlers (C1, C4)

`UrlRecord` embeds the mongoose Url document fields the handlers touch
(clickHistory entries reduced to their timestamps).  The persistence
collaborator is the in-memory list `db`; `Url.findOne` is a first-match
scan.  Dates are `Nat` milliseconds. -/

structure UrlRecord where
  originalUrl : String
  shortCode : String
  clicks : Nat
  clickHistory : List Nat
  expiresAt : Option Nat
deriving Repr, DecidableEq

/-- `Url.findOne({ shortCode })`. -/
def findByShortCode (db : List UrlRecord) (code : String) : Option UrlRecord :=
  db.find? (fun r => r.shortCode == code)

/-- `Url.findOne({ originalUrl })`. -/
def findByOriginalUrl (db : List UrlRecord) (originalUrl : String) : Option UrlRecord :=
  db.find? (fun r => r.originalUrl == originalUrl)

/-- `url.expiresAt && new Date() > url.expiresAt`. -/
def isExpired (expiresAt : Option Nat) (now : Nat) : Bool :=
  match expiresAt with
  | some t => decide (t < now)
  | none => false

inductive RedirectOutcome where
  | notFound
  | expired
  | redirected (url : String)
deriving Repr, DecidableEq

/-- GET /:shortCode (routes/urlRoutes.js lines 154-199): read the canonical
record first ("First, check from database to verify expiration"); 404 when
absent; 410 when expired; otherwise backfill the cache, increment `clicks`,
append the click event, save, and redirect.  Returns the outcome, the cache
after the request, and the record written back (if any).  The mounted
handler never reads the cache on this path, so a cache entry cannot bypass
the expiry check. -/
def handleRedirect (db : List UrlRecord) (cache : HashMap) (now : Nat) (shortCode : String) :
    RedirectOutcome × HashMap × Option UrlRecord :=
  match findByShortCode db shortCode with
  | none => (.notFound, cache, none)
  | some url =>
    if isExpired url.expiresAt now then (.expired, cache, none)
    else
      (.redirected url.originalUrl, cache.set shortCode url.originalUrl,
       some { url with clicks := url.clicks + 1, clickHistory := url.clickHistory ++ [now] })

/-- C1: whenever the canonical record of a short code carries an `expiresAt`
earlier than the current time, the redirect is refused with the expired
outcome, for every cache state — the expiry decision reads only the
canonical record. -/
theorem redirect_expired_refused (db : List UrlRecord) (cache : HashMap) (now : Nat)
    (code : String) (rec : UrlRecord) (e : Nat)
    (hfind : findByShortCode db code = some rec)
    (hexp : rec.expiresAt = some e) (hlt : e < now) :
    (handleRedirect db cache now code).1 = .expired := by
  simp only [handleRedirect, hfind]
  rw [if_pos]
  rw [hexp]
  simp [isExpired, hlt]

/-- C1 witness: a record expired at 10 queried at 20 is refused, with a
non-empty cache that even holds the short code. -/
theorem redirect_expired_refused_witness :
    (handleRedirect [⟨"http://a.example", "abcdefg", 3, [], some 10⟩]
      ((HashMap.empty 5).set "abcdefg" "http://a.example") 20 "abcdefg").1
      = .expired :=
  redirect_expired_refused [⟨"http://a.example", "abcdefg", 3, [], some 10⟩]
    ((HashMap.empty 5).set "abcdefg" "http://a.example") 20 "abcdefg"
    ⟨"http://a.example", "abcdefg", 3, [], some 10⟩ 10 (by decide) (by decide) (by decide)

inductive ShortenOutcome where
  | invalidExpiry
  | existing (code : String)
  | created (code : String)
  | allocationFailed
deriving Repr, DecidableEq

/-- The body of POST /api/shorten after expiry validation
(routes/urlRoutes.js lines 69-146): return the existing record's code and
refresh its cache entry when a record with the same target exists; else run
the allocation loop (C3) against the persistence probe, 500 on exhaustion,
else persist `{originalUrl, shortCode, clicks: 0, expiresAt}` and cache the
new mapping. -/
def shortenMain (db : List UrlRecord) (cache : HashMap) (gen : Nat → String)
    (originalUrl : String) (expiresAt : Option Nat) :
    ShortenOutcome × List UrlRecord × HashMap :=
  match findByOriginalUrl db originalUrl with
  | some url => (.existing url.shortCode, db, cache.set url.shortCode url.originalUrl)
  | none =>
    match allocate gen (fun code => (findByShortCode db code).isSome) with
    | .exhausted => (.allocationFailed, db, cache)
    | .success shortCode =>
      (.created shortCode,
       db ++ [⟨originalUrl, shortCode, 0, [], expiresAt⟩],
       cache.set shortCode originalUrl)

/-- POST /api/shorten: `if (expiresAt)` the date must lie strictly in the
future (`expDate <= new Date()` is a 400), then the main body runs. -/
def handleShorten (db : List UrlRecord) (cache : HashMap) (gen : Nat → String) (now : Nat)
    (originalUrl : String) (expiresAt : Option Nat) :
    ShortenOutcome × List UrlRecord × HashMap :=
  match expiresAt with
  | some e =>
    if e ≤ now then (.invalidExpiry, db, cache)
    else shortenMain db cache gen originalUrl (some e)
  | none => shortenMain db cache gen originalUrl none

theorem shortenMain_idem (db : List UrlRecord) (cache : HashMap) (gen : Nat → String)
    (o : String) (exp? : Option Nat) (code : String) (db1 : List UrlRecord) (c1 : HashMap)
    (h : shortenMain db cache gen o exp? = (.created code, db1, c1)
       ∨ shortenMain db cache gen o exp? = (.existing code, db1, c1)) :
    shortenMain db1 c1 gen o exp? = (.existing code, db1, c1.set code o) := by
  cases hf : findByOriginalUrl db o with
  | some url =>
    have hurl : url.originalUrl = o := by
      simp only [findByOriginalUrl] at hf
      have hb := List.find?_some hf
      simp only [beq_iff_eq] at hb
      exact hb
    have heq : shortenMain db cache gen o exp?
        = (.existing url.shortCode, db, cache.set url.shortCode url.originalUrl) := by
      simp only [shortenMain, hf]
    rcases h with h | h
    · rw [heq] at h
      exact absurd h (by simp)
    · rw [heq] at h
      have h' : url.shortCode = code ∧ db = db1
          ∧ cache.set url.shortCode url.originalUrl = c1 := by
        simpa [Prod.ext_iff] using h
      obtain ⟨hcode, hdb, hcache⟩ := h'
      subst hcode
      subst hdb
      subst hcache
      simp only [shortenMain, hf]
      rw [hurl]
  | none =>
    cases ha : allocate gen (fun c => (findByShortCode db c).isSome) with
    | exhausted =>
      have heq : shortenMain db cache gen o exp? = (.allocationFailed, db, cache) := by
        simp only [shortenMain, hf, ha]
      rcases h with h | h <;> rw [heq] at h <;> exact absurd h (by simp)
    | success sc =>
      have heq : shortenMain db cache gen o exp?
          = (.created sc, db ++ [⟨o, sc, 0, [], exp?⟩], cache.set sc o) := by
        simp only [shortenMain, hf, ha]
      rcases h with h | h
      · rw [heq] at h
        have h' : sc = code ∧ db ++ [⟨o, sc, 0, [], exp?⟩] = db1 ∧ cache.set sc o = c1 := by
          simpa [Prod.ext_iff] using h
        obtain ⟨hcode, hdb, hcache⟩ := h'
        subst hcode
        subst hdb
        subst hcache
        have hf2 : findByOriginalUrl (db ++ [⟨o, sc, 0, [], exp?⟩]) o
            = some ⟨o, sc, 0, [], exp?⟩ := by
          simp only [findByOriginalUrl] at hf ⊢
          rw [List.find?_append, hf]
          simp
        simp only [shortenMain, hf2]
      · rw [heq] at h
        exact absurd h (by simp)

/-- C4: creation is idempotent in the target URL — if a create call returns
short code `c` (fresh or existing), an immediate repeat with the same target
returns the same `c` via the existing-record branch, adds no canonical
record, and only refreshes the cache entry. -/
theorem shorten_idempotent (db : List UrlRecord) (cache : HashMap) (gen : Nat → String)
    (now : Nat) (o : String) (exp? : Option Nat) (code : String)
    (db1 : List UrlRecord) (c1 : HashMap)
    (h : handleShorten db cache gen now o exp? = (.created code, db1, c1)
       ∨ handleShorten db cache gen now o exp? = (.existing code, db1, c1)) :
    handleShorten db1 c1 gen now o exp? = (.existing code, db1, c1.set code o) := by
  cases exp? with
  | none =>
    show shortenMain db1 c1 gen o none = _
    exact shortenMain_idem db cache gen o none code db1 c1 h
  | some e =>
    by_cases he : e ≤ now
    · have hinv : handleShorten db cache gen now o (some e) = (.invalidExpiry, db, cache) := by
        simp only [handleShorten]
        rw [if_pos he]
      rcases h with h | h <;> rw [hinv] at h <;> exact absurd h (by simp)
    · have hred : handleShorten db cache gen now o (some e)
          = shortenMain db cache gen o (some e) := by
        simp only [handleShorten]
        rw [if_neg he]
      rw [hred] at h
      have hmain := shortenMain_idem db cache gen o (some e) code db1 c1 h
      calc handleShorten db1 c1 gen now o (some e)
          = shortenMain db1 c1 gen o (some e) := by
            simp only [handleShorten]
            rw [if_neg he]
        _ = _ := hmain

/-- C4 witness: a fresh creation of "http://t.example" (allocator returns
"abcdefg" on the first probe), then the repeat call returns the same code
through the existing branch, leaves the store unchanged and refreshes the
cache. -/
theorem shorten_idempotent_witness :
    handleShorten [⟨"http://t.example", "abcdefg", 0, [], none⟩]
        ((HashMap.empty 3).set "abcdefg" "http://t.example")
        (fun _ => "abcdefg") 0 "http://t.example" none
      = (.existing "abcdefg",
         [⟨"http://t.example", "abcdefg", 0, [], none⟩],
         ((HashMap.empty 3).set "abcdefg" "http://t.example").set "abcdefg"
           "http://t.example") :=
  shorten_idempotent [] (HashMap.empty 3) (fun _ => "abcdefg") 0 "http://t.example" none
    "abcdefg" [⟨"http://t.example", "abcdefg", 0, [], none⟩]
    ((HashMap.empty 3).set "abcdefg" "http://t.example")
    (Or.inl (by decide))
